import Mathlib

/-!
Shallow embedding of the loading-state store of
`react-hook-loading-spinner` (`src/src/hooks/useLoading.ts`).

The store state is the triple `(loadingCount, overrideState, localCounters)`
created by `create<Store>()(...)`.  `localCounters` is a JavaScript
`Record<string, number>`; we embed it as an association list with
first-match lookup (missing key reads as `0`, matching `?? 0` in the
source) and first-match overwrite (matching the object-spread update
`{ ...state.localCounters, [instanceId]: v }`).  Counters are embedded as
`Int` with the source's explicit `Math.max(0, · - 1)` clamping.

JavaScript truthiness matters: `startLoading`/`stopLoading` guard on
`if (instanceId)`, which is false for a missing argument *and* for the
empty string, so a key is "given" exactly when it is a non-empty string.
-/

namespace LoadingSpinner

/-- `localCounters[k] ?? 0`: first-match lookup in the record, 0 if absent. -/
def getL : List (String × Int) → String → Int
  | [], _ => 0
  | p :: rest, k => if p.1 = k then p.2 else getL rest k

/-- `{ ...m, [k]: v }`: overwrite the (first) entry for `k`, or append it. -/
def setL : List (String × Int) → String → Int → List (String × Int)
  | [], k, v => [(k, v)]
  | p :: rest, k, v => if p.1 = k then (k, v) :: rest else p :: setL rest k v

/-- The zustand store state from `useLoading.ts`:
`loadingCount`, `overrideState: boolean | null`, `localCounters`. -/
structure Store where
  loadingCount : Int
  overrideState : Option Bool
  localCounters : List (String × Int)
  deriving Repr, DecidableEq

/-- The initial store state: `loadingCount: 0, overrideState: null,
localCounters: {}`. -/
def initStore : Store := ⟨0, none, []⟩

/-- `isLoading() { return get().overrideState ?? (get().loadingCount > 0); }`
(`??` is JavaScript nullish coalescing: a present `false` override wins). -/
def isLoading (s : Store) : Bool :=
  s.overrideState.getD (decide (0 < s.loadingCount))

/-- `isGlobalLoading() { return get().isLoading() }`. -/
def isGlobalLoading (s : Store) : Bool := isLoading s

/-- `getLocalCounter(id) { return get().localCounters[id] ?? 0 }`. -/
def getLocalCounter (s : Store) (instanceId : String) : Int :=
  getL s.localCounters instanceId

/-- `isLocalLoading(id) { return (get().localCounters[id] ?? 0) > 0 }`. -/
def isLocalLoading (s : Store) (instanceId : String) : Bool :=
  decide (0 < getL s.localCounters instanceId)

/-- JavaScript truthiness of the optional `instanceId` argument:
`if (instanceId)` is taken iff the argument is present and non-empty. -/
def truthy : Option String → Bool
  | none => false
  | some k => !(k = "")

/-- State part of `startLoading(instanceId?)`: increment `loadingCount`;
if `instanceId` is truthy, additionally bump its local counter. -/
def startLoading (instanceId : Option String) (s : Store) : Store :=
  let s1 : Store := { s with loadingCount := s.loadingCount + 1 }
  match instanceId with
  | some k =>
      if k = "" then s1
      else { s1 with localCounters := setL s1.localCounters k (getL s1.localCounters k + 1) }
  | none => s1

/-- State part of `stopLoading(instanceId?)`: only when `instanceId` is
truthy and its local counter is `> 0`, decrement `loadingCount` and that
local counter, both floored at 0 by `Math.max`. -/
def stopLoading (instanceId : Option String) (s : Store) : Store :=
  let localCounter : Int :=
    match instanceId with
    | some k => if k = "" then 0 else getL s.localCounters k
    | none => 0
  match instanceId with
  | some k =>
      if k ≠ "" ∧ 0 < localCounter then
        { s with
            loadingCount := max 0 (s.loadingCount - 1),
            localCounters := setL s.localCounters k (max 0 (getL s.localCounters k - 1)) }
      else s
  | none => s

/-- State part of `overrideLoading(state)`: `set({ overrideState: state })`. -/
def overrideLoading (st : Option Bool) (s : Store) : Store :=
  { s with overrideState := st }

/-- One mutating call against the store. -/
inductive Call
  | start : Option String → Call
  | stop : Option String → Call
  | override : Option Bool → Call
  deriving Repr, DecidableEq

/-- State transition of one mutating call. -/
def exec : Call → Store → Store
  | .start k, s => startLoading k s
  | .stop k, s => stopLoading k s
  | .override b, s => overrideLoading b s

/-- Run a list of calls from a state. -/
def execList (l : List Call) (s : Store) : Store :=
  l.foldl (fun st c => exec c st) s

/-- Run a list of calls from the initial store state. -/
def run (l : List Call) : Store := execList l initStore

/-- Events published through `loadingEventTarget`, with the `change`
payload `{ isLoading, isOverrideState }`. -/
inductive Ev
  | start : Ev
  | stop : Ev
  | change : Bool → Bool → Ev
  deriving Repr, DecidableEq

/-- Is an event a `change` event (any payload)? -/
def Ev.isChange : Ev → Bool
  | .change _ _ => true
  | _ => false

/-- The events emitted by one mutating call, in emission order, mirroring
the `emit` sites of `startLoading`, `stopLoading` and `overrideLoading`. -/
def events (c : Call) (s : Store) : List Ev :=
  match c with
  | .start k =>
      let prev := isLoading s
      let s2 := startLoading k s
      let nw := isLoading s2
      (if nw && !prev then [Ev.start] else []) ++
        [Ev.change nw (s2.overrideState ≠ none)]
  | .stop k =>
      let prev := isLoading s
      let s2 := stopLoading k s
      let nw := isLoading s2
      (if !nw && prev then [Ev.stop] else []) ++
        [Ev.change nw (s2.overrideState ≠ none)]
  | .override b =>
      let prev := isLoading s
      let s2 := overrideLoading b s
      let nw := isLoading s2
      (if nw && !prev then [Ev.start]
       else if !nw && prev then [Ev.stop] else []) ++
        [Ev.change nw (b ≠ none)]

/-- `asyncUseLoading` of the `useLoading()` hook, for one instance key.
The asynchronous computation is embedded by its settled outcome
(`Except.ok` a resolved value, `Except.error` a rejection):
`localStartLoading()` runs first, then in the `finally` block
`localStopLoading()` stops only when `isLocalLoading(instanceId)` holds,
and the original outcome is returned/re-thrown unchanged. -/
def asyncUseLoading {ε ρ : Type} (key : String) (outcome : Except ε ρ)
    (s : Store) : Store × Except ε ρ :=
  let s1 := startLoading (some key) s
  let s2 := if isLocalLoading s1 key then stopLoading (some key) s1 else s1
  (s2, outcome)

/-- Sum of all record values. -/
def sumL : List (String × Int) → Int
  | [] => 0
  | p :: rest => p.2 + sumL rest

/-- Invariant of every reachable store state: all local counters are
nonnegative, the empty key (which JavaScript treats as no key) has local
counter 0, and the global counter dominates the sum of the local ones. -/
def Inv (s : Store) : Prop :=
  (∀ p ∈ s.localCounters, 0 ≤ p.2) ∧
  getL s.localCounters "" = 0 ∧
  sumL s.localCounters ≤ s.loadingCount

/-- Is this call a `startLoading` whose key argument is falsy
(absent or the empty string), i.e. one that bumps no local counter? -/
def falsyStart : Call → Bool
  | .start k => !truthy k
  | _ => false

/-- Number (as an integer) of falsy-keyed `startLoading` calls in a trace. -/
def falsyStartCount : List Call → Int
  | [] => 0
  | c :: t => (if falsyStart c then 1 else 0) + falsyStartCount t

/-! ### Basic lemmas about the association-list record -/

theorem getL_setL_self (m : List (String × Int)) (k : String) (v : Int) :
    getL (setL m k v) k = v := by
  induction m with
  | nil => simp [getL, setL]
  | cons p rest ih =>
      by_cases h : p.1 = k
      · simp [getL, setL, h]
      · simp [getL, setL, h, ih]

theorem getL_setL_other (m : List (String × Int)) (k k2 : String) (v : Int)
    (hne : k2 ≠ k) : getL (setL m k v) k2 = getL m k2 := by
  have hkk : ¬ k = k2 := fun h => hne h.symm
  induction m with
  | nil => simp [getL, setL, hkk]
  | cons p rest ih =>
      by_cases h : p.1 = k
      · subst h
        simp [getL, setL, hkk]
      · simp [getL, setL, h, ih]

theorem sumL_setL (m : List (String × Int)) (k : String) (v : Int) :
    sumL (setL m k v) = sumL m + v - getL m k := by
  induction m with
  | nil => simp [sumL, setL, getL]
  | cons p rest ih =>
      by_cases h : p.1 = k
      · simp only [setL, getL, if_pos h, sumL]
        ring
      · simp only [setL, getL, if_neg h, sumL]
        omega

theorem getL_nonneg (m : List (String × Int)) (k : String)
    (h : ∀ p ∈ m, 0 ≤ p.2) : 0 ≤ getL m k := by
  induction m with
  | nil => simp [getL]
  | cons p rest ih =>
      by_cases hk : p.1 = k
      · simpa [getL, hk] using h p (by simp)
      · exact (by simpa [getL, hk] using ih (fun q hq => h q (by simp [hq])))

theorem sumL_nonneg (m : List (String × Int)) (h : ∀ p ∈ m, 0 ≤ p.2) :
    0 ≤ sumL m := by
  induction m with
  | nil => simp [sumL]
  | cons p rest ih =>
      have h1 := h p (by simp)
      have h2 := ih (fun q hq => h q (by simp [hq]))
      simp only [sumL]
      omega

theorem getL_le_sumL (m : List (String × Int)) (k : String)
    (h : ∀ p ∈ m, 0 ≤ p.2) : getL m k ≤ sumL m := by
  induction m with
  | nil => simp [getL, sumL]
  | cons p rest ih =>
      have hrest : ∀ q ∈ rest, 0 ≤ q.2 := fun q hq => h q (by simp [hq])
      have hs := sumL_nonneg rest hrest
      have hp := h p (by simp)
      by_cases hk : p.1 = k
      · simp only [getL, sumL, if_pos hk]
        omega
      · have hi := ih hrest
        simp only [getL, sumL, if_neg hk]
        omega

theorem mem_setL (m : List (String × Int)) (k : String) (v : Int)
    (q : String × Int) (hq : q ∈ setL m k v) : q = (k, v) ∨ q ∈ m := by
  induction m with
  | nil =>
      simp only [setL, List.mem_singleton] at hq
      exact Or.inl hq
  | cons p rest ih =>
      simp only [setL] at hq
      by_cases h : p.1 = k
      · rw [if_pos h] at hq
        rcases List.mem_cons.mp hq with h1 | h1
        · exact Or.inl h1
        · exact Or.inr (List.mem_cons_of_mem p h1)
      · rw [if_neg h] at hq
        rcases List.mem_cons.mp hq with h1 | h1
        · refine Or.inr ?_
          rw [h1]
          exact List.mem_cons_self p rest
        · rcases ih h1 with h2 | h2
          · exact Or.inl h2
          · exact Or.inr (List.mem_cons_of_mem p h2)

/-! ### Unfolding lemmas for the three mutations -/

theorem startLoading_none (s : Store) :
    startLoading none s = { s with loadingCount := s.loadingCount + 1 } := rfl

theorem startLoading_empty (s : Store) :
    startLoading (some "") s = { s with loadingCount := s.loadingCount + 1 } := by
  simp [startLoading]

theorem startLoading_some (s : Store) (k : String) (hk : k ≠ "") :
    startLoading (some k) s =
      { s with loadingCount := s.loadingCount + 1,
               localCounters := setL s.localCounters k (getL s.localCounters k + 1) } := by
  simp [startLoading, hk]

theorem stopLoading_none (s : Store) : stopLoading none s = s := rfl

theorem stopLoading_empty (s : Store) : stopLoading (some "") s = s := by
  simp [stopLoading]

theorem stopLoading_zero (s : Store) (k : String)
    (h : getL s.localCounters k ≤ 0) : stopLoading (some k) s = s := by
  by_cases hk : k = ""
  · subst hk; exact stopLoading_empty s
  · have h2 : ¬ 0 < getL s.localCounters k := by omega
    simp [stopLoading, hk, h2]

theorem stopLoading_pos (s : Store) (k : String) (hk : k ≠ "")
    (h : 0 < getL s.localCounters k) :
    stopLoading (some k) s =
      { s with
          loadingCount := max 0 (s.loadingCount - 1),
          localCounters := setL s.localCounters k (max 0 (getL s.localCounters k - 1)) } := by
  simp [stopLoading, hk, h]

theorem overrideLoading_eq (b : Option Bool) (s : Store) :
    overrideLoading b s = { s with overrideState := b } := rfl

/-! ### The reachability invariant -/

theorem falsyStartCount_nonneg (t : List Call) : 0 ≤ falsyStartCount t := by
  induction t with
  | nil => simp [falsyStartCount]
  | cons c t ih =>
      by_cases h : falsyStart c <;> simp [falsyStartCount, h] <;> omega

theorem falsyStartCount_append (a b : List Call) :
    falsyStartCount (a ++ b) = falsyStartCount a + falsyStartCount b := by
  induction a with
  | nil => simp [falsyStartCount]
  | cons c t ih => simp [falsyStartCount, ih]; ring

theorem exec_inv_step (c : Call) (s : Store) (h : Inv s) :
    Inv (exec c s) ∧
    (exec c s).loadingCount - sumL (exec c s).localCounters
      = s.loadingCount - sumL s.localCounters + (if falsyStart c then 1 else 0) := by
  obtain ⟨hmem, hemp, hsum⟩ := h
  cases c with
  | start k? =>
      match k? with
      | none =>
          rw [exec, startLoading_none]
          refine ⟨⟨hmem, hemp, ?_⟩, ?_⟩
          · simp only
            omega
          · simp [falsyStart, truthy]
            try omega
      | some k =>
          by_cases hk : k = ""
          · subst hk
            rw [exec, startLoading_empty]
            refine ⟨⟨hmem, hemp, ?_⟩, ?_⟩
            · simp only
              omega
            · simp [falsyStart, truthy]
              try omega
          · have hget := getL_nonneg s.localCounters k hmem
            rw [exec, startLoading_some s k hk]
            refine ⟨⟨?_, ?_, ?_⟩, ?_⟩
            · intro p hp
              rcases mem_setL _ _ _ p hp with h1 | h1
              · rw [h1]
                show (0 : Int) ≤ getL s.localCounters k + 1
                omega
              · exact hmem p h1
            · show getL (setL s.localCounters k _) "" = 0
              rw [getL_setL_other s.localCounters k "" _ (fun h => hk h.symm)]
              exact hemp
            · show sumL (setL s.localCounters k _) ≤ s.loadingCount + 1
              rw [sumL_setL]
              omega
            · have hf : falsyStart (Call.start (some k)) = false := by
                simp [falsyStart, truthy, hk]
              rw [hf]
              show s.loadingCount + 1 - sumL (setL s.localCounters k _) = _
              rw [sumL_setL]
              simp
              try omega
  | stop k? =>
      match k? with
      | none =>
          rw [exec, stopLoading_none]
          exact ⟨⟨hmem, hemp, hsum⟩, by simp [falsyStart]⟩
      | some k =>
          by_cases hk : k = ""
          · subst hk
            rw [exec, stopLoading_empty]
            exact ⟨⟨hmem, hemp, hsum⟩, by simp [falsyStart]⟩
          · have hget := getL_nonneg s.localCounters k hmem
            by_cases hpos : 0 < getL s.localCounters k
            · have hle := getL_le_sumL s.localCounters k hmem
              have hc : 0 < s.loadingCount := lt_of_lt_of_le (lt_of_lt_of_le hpos hle) hsum
              rw [exec, stopLoading_pos s k hk hpos]
              have hmax : max 0 (getL s.localCounters k - 1)
                  = getL s.localCounters k - 1 := by omega
              have hmaxc : max 0 (s.loadingCount - 1) = s.loadingCount - 1 := by omega
              refine ⟨⟨?_, ?_, ?_⟩, ?_⟩
              · intro p hp
                rcases mem_setL _ _ _ p hp with h1 | h1
                · rw [h1]
                  show (0 : Int) ≤ max 0 (getL s.localCounters k - 1)
                  omega
                · exact hmem p h1
              · show getL (setL s.localCounters k _) "" = 0
                rw [getL_setL_other s.localCounters k "" _ (fun h => hk h.symm)]
                exact hemp
              · show sumL (setL s.localCounters k _) ≤ max 0 (s.loadingCount - 1)
                rw [sumL_setL, hmax, hmaxc]
                omega
              · show max 0 (s.loadingCount - 1) - sumL (setL s.localCounters k _) = _
                rw [sumL_setL, hmax, hmaxc]
                simp [falsyStart]
                try omega
            · have hz : getL s.localCounters k ≤ 0 := by omega
              have he : exec (Call.stop (some k)) s = s := by
                rw [exec]
                exact stopLoading_zero s k hz
              rw [he]
              exact ⟨⟨hmem, hemp, hsum⟩, by simp [falsyStart]⟩
  | override b =>
      rw [exec, overrideLoading_eq]
      exact ⟨⟨hmem, hemp, hsum⟩, by simp [falsyStart]⟩

theorem execList_cons (c : Call) (t : List Call) (s : Store) :
    execList (c :: t) s = execList t (exec c s) := rfl

theorem execList_inv (t : List Call) (s : Store) (h : Inv s) :
    Inv (execList t s) ∧
    (execList t s).loadingCount - sumL (execList t s).localCounters
      = s.loadingCount - sumL s.localCounters + falsyStartCount t := by
  induction t generalizing s with
  | nil => exact ⟨h, by simp [execList, falsyStartCount]⟩
  | cons c t ih =>
      have hstep := exec_inv_step c s h
      have hrest := ih (exec c s) hstep.1
      refine ⟨by simpa [execList_cons] using hrest.1, ?_⟩
      rw [execList_cons]
      have h1 := hrest.2
      have h2 := hstep.2
      simp only [falsyStartCount]
      omega

theorem inv_initStore : Inv initStore := by
  refine ⟨?_, ?_, ?_⟩ <;> simp [initStore, getL, sumL]

theorem run_inv (t : List Call) : Inv (run t) := (execList_inv t initStore inv_initStore).1

theorem run_debt (t : List Call) :
    (run t).loadingCount = sumL (run t).localCounters + falsyStartCount t := by
  have h := (execList_inv t initStore inv_initStore).2
  have h0 : initStore.loadingCount = 0 := rfl
  have h1 : sumL initStore.localCounters = 0 := rfl
  rw [h0, h1] at h
  show (execList t initStore).loadingCount
    = sumL (execList t initStore).localCounters + falsyStartCount t
  omega

theorem run_local_nonneg (t : List Call) (k : String) :
    0 ≤ getL (run t).localCounters k :=
  getL_nonneg _ _ (run_inv t).1

theorem run_count_nonneg (t : List Call) : 0 ≤ (run t).loadingCount := by
  have h1 := run_debt t
  have h2 := sumL_nonneg _ (run_inv t).1
  have h3 := falsyStartCount_nonneg t
  omega

theorem run_local_le_count (t : List Call) (k : String) :
    getL (run t).localCounters k ≤ (run t).loadingCount := by
  have h1 := run_debt t
  have h2 := getL_le_sumL (run t).localCounters k (run_inv t).1
  have h3 := falsyStartCount_nonneg t
  omega

theorem run_empty_key (t : List Call) : getL (run t).localCounters "" = 0 :=
  (run_inv t).2.1

/-! ### Preservation and monotonicity of the derived boolean -/

theorem startLoading_overrideState (k : Option String) (s : Store) :
    (startLoading k s).overrideState = s.overrideState := by
  match k with
  | none => rfl
  | some k0 => by_cases h : k0 = "" <;> simp [startLoading, h]

theorem startLoading_loadingCount (k : Option String) (s : Store) :
    (startLoading k s).loadingCount = s.loadingCount + 1 := by
  match k with
  | none => rfl
  | some k0 => by_cases h : k0 = "" <;> simp [startLoading, h]

theorem stopLoading_overrideState (k : Option String) (s : Store) :
    (stopLoading k s).overrideState = s.overrideState := by
  match k with
  | none => rfl
  | some k0 =>
      by_cases hk : k0 = ""
      · subst hk; rw [stopLoading_empty]
      · by_cases hp : 0 < getL s.localCounters k0
        · rw [stopLoading_pos s k0 hk hp]
        · rw [stopLoading_zero s k0 (by omega)]

theorem stopLoading_count (k : Option String) (s : Store) :
    (stopLoading k s).loadingCount = s.loadingCount ∨
    (stopLoading k s).loadingCount = max 0 (s.loadingCount - 1) := by
  match k with
  | none => exact Or.inl rfl
  | some k0 =>
      by_cases hk : k0 = ""
      · subst hk
        exact Or.inl (by rw [stopLoading_empty])
      · by_cases hp : 0 < getL s.localCounters k0
        · exact Or.inr (by rw [stopLoading_pos s k0 hk hp])
        · exact Or.inl (by rw [stopLoading_zero s k0 (by omega)])

theorem isLoading_startLoading_true (k : Option String) (s : Store)
    (h : isLoading s = true) : isLoading (startLoading k s) = true := by
  unfold isLoading at h ⊢
  rw [startLoading_overrideState, startLoading_loadingCount]
  cases hb : s.overrideState with
  | some b => rw [hb] at h; exact h
  | none =>
      rw [hb] at h
      simp only [Option.getD_none, decide_eq_true_eq] at h ⊢
      omega

theorem isLoading_stopLoading_false (k : Option String) (s : Store)
    (h : isLoading s = false) : isLoading (stopLoading k s) = false := by
  unfold isLoading at h ⊢
  rw [stopLoading_overrideState]
  cases hb : s.overrideState with
  | some b => rw [hb] at h; exact h
  | none =>
      rw [hb] at h
      simp only [Option.getD_none, decide_eq_false_iff_not] at h ⊢
      rcases stopLoading_count k s with hc | hc <;> rw [hc] <;> omega

/-! ### The claims -/

/-- C2. For every state, `isGlobalLoading()` returns the override state
when present — after `overrideLoading(true)` it is true even at counter 0,
after `overrideLoading(false)` it is false even at positive counter — and
returns `loadingCount > 0` when the override is `null`, including right
after `overrideLoading(null)` clears a previous override. -/
theorem c2_override_precedence (s : Store) (b : Bool) :
    isGlobalLoading { s with overrideState := some b } = b ∧
    isGlobalLoading { s with overrideState := none }
      = decide (0 < s.loadingCount) ∧
    isGlobalLoading (exec (Call.override (some b)) s) = b ∧
    isGlobalLoading (exec (Call.override none) s)
      = decide (0 < s.loadingCount) :=
  ⟨rfl, rfl, rfl, rfl⟩

/-- C4. For every sequence of mutating calls from the initial state
(keyed or unkeyed, with arbitrarily many more stops than starts), the
global counter and every local counter stay nonnegative; all operations
are total functions, so no call can throw. -/
theorem c4_counter_floor (t : List Call) :
    0 ≤ (run t).loadingCount ∧ ∀ k, 0 ≤ getL (run t).localCounters k :=
  ⟨run_count_nonneg t, fun k => run_local_nonneg t k⟩

/-- C6 counterexample. The claim says an unkeyed `stopLoading` decrements
the global counter in some state; in the code the whole mutation is
guarded by `if (instanceId && localCounter > 0)`, so an unkeyed stop
never changes the counter in any state. -/
theorem c6_counterexample :
    ¬ ∃ s : Store,
      (exec (Call.stop none) s).loadingCount < s.loadingCount := by
  rintro ⟨s, hs⟩
  rw [exec, stopLoading_none] at hs
  exact lt_irrefl _ hs

/-- C6 amended. A `stopLoading` call made without an instance key is a
complete no-op on the store: it never decrements the global counter nor
any local counter, in every state. -/
theorem c6_unkeyed_stop_noop (s : Store) : exec (Call.stop none) s = s := by
  rw [exec, stopLoading_none]

/-- C7 counterexample. With genuinely unkeyed calls, the sequence
`start; start; stop; stop` leaves `isGlobalLoading()` true, because an
unkeyed stop never decrements the counter — the claim predicts false. -/
theorem c7_counterexample :
    isGlobalLoading
      (run [Call.start none, Call.start none,
            Call.stop none, Call.stop none]) = true := by decide

/-- C7 amended. The reference-counting scenario holds when the calls
share one instance key (as the `useLoading()` hook supplies): two keyed
starts make loading true, one keyed stop keeps it true, the second keyed
stop makes it false.  With unkeyed calls the two starts make it true and
it stays true, since unkeyed stops are no-ops. -/
theorem c7_keyed_refcount :
    isGlobalLoading (run [Call.start (some "A"), Call.start (some "A")]) = true ∧
    isGlobalLoading (run [Call.start (some "A"), Call.start (some "A"),
      Call.stop (some "A")]) = true ∧
    isGlobalLoading (run [Call.start (some "A"), Call.start (some "A"),
      Call.stop (some "A"), Call.stop (some "A")]) = false ∧
    isGlobalLoading (run [Call.start none, Call.start none,
      Call.stop none, Call.stop none]) = true := by decide

/-- C10. In every reachable state the global counter equals the sum of
the local counters plus the number of `startLoading` calls whose key was
falsy (absent or the empty string, which JavaScript's `if (instanceId)`
treats as not given); hence it dominates the sum of the local counters
and each individual local counter. -/
theorem c10_global_dominates (t : List Call) :
    (run t).loadingCount = sumL (run t).localCounters + falsyStartCount t ∧
    sumL (run t).localCounters ≤ (run t).loadingCount ∧
    ∀ k, getL (run t).localCounters k ≤ (run t).loadingCount := by
  refine ⟨run_debt t, ?_, fun k => run_local_le_count t k⟩
  have h1 := run_debt t
  have h2 := falsyStartCount_nonneg t
  omega

/-- C1. Against every reachable store state, `stopLoading` decrements the
global counter and the caller's local counter exactly when a (truthy)
instance key is supplied whose local counter is positive, leaving every
other local counter unchanged; with no key, or a zero local counter, the
call leaves the whole state unchanged. -/
theorem c1_stop_pairing (t : List Call) (k : String) :
    (0 < getL (run t).localCounters k →
      (exec (Call.stop (some k)) (run t)).loadingCount
        = (run t).loadingCount - 1 ∧
      getL (exec (Call.stop (some k)) (run t)).localCounters k
        = getL (run t).localCounters k - 1 ∧
      ∀ k2, k2 ≠ k →
        getL (exec (Call.stop (some k)) (run t)).localCounters k2
          = getL (run t).localCounters k2) ∧
    (getL (run t).localCounters k = 0 →
      exec (Call.stop (some k)) (run t) = run t) ∧
    exec (Call.stop none) (run t) = run t := by
  refine ⟨?_, ?_, ?_⟩
  · intro hpos
    have hk : k ≠ "" := by
      intro hk
      rw [hk] at hpos
      have := run_empty_key t
      omega
    have hle := run_local_le_count t k
    rw [exec, stopLoading_pos (run t) k hk hpos]
    refine ⟨?_, ?_, ?_⟩
    · show max 0 ((run t).loadingCount - 1) = (run t).loadingCount - 1
      omega
    · show getL (setL (run t).localCounters k
          (max 0 (getL (run t).localCounters k - 1))) k = _
      rw [getL_setL_self]
      omega
    · intro k2 hk2
      show getL (setL (run t).localCounters k
          (max 0 (getL (run t).localCounters k - 1))) k2 = _
      rw [getL_setL_other _ _ _ _ hk2]
  · intro hz
    rw [exec]
    exact stopLoading_zero (run t) k (le_of_eq hz)
  · rw [exec, stopLoading_none]

/-- C1 witness: after two keyed starts, a keyed stop with key "A"
decrements the global counter, and a stop with the fresh key "B" (local
counter 0) leaves the state unchanged. -/
theorem c1_stop_pairing_witness :
    (exec (Call.stop (some "A"))
        (run [Call.start (some "A"), Call.start (some "A")])).loadingCount
      = (run [Call.start (some "A"), Call.start (some "A")]).loadingCount - 1 ∧
    exec (Call.stop (some "B")) (run [Call.start (some "A"), Call.start (some "A")])
      = run [Call.start (some "A"), Call.start (some "A")] := by
  refine ⟨((c1_stop_pairing [Call.start (some "A"), Call.start (some "A")] "A").1
    (by decide)).1, ?_⟩
  exact (c1_stop_pairing [Call.start (some "A"), Call.start (some "A")] "B").2.1
    (by decide)

/-- C5. In every reachable state with no override and a positive local
counter for instance `B`, `isGlobalLoading()` is true, and any number of
orphan `stopLoading(A)` calls by an instance `A` whose local counter is 0
leave the state — in particular the global counter and `B`'s loading
state — completely unchanged. -/
theorem c5_pairing_invariant (t : List Call) (A B : String)
    (hov : (run t).overrideState = none)
    (hB : 0 < getL (run t).localCounters B)
    (hA : getL (run t).localCounters A = 0) :
    isGlobalLoading (run t) = true ∧
    (exec (Call.stop (some A)) (run t)).loadingCount = (run t).loadingCount ∧
    ∀ n : Nat, Nat.iterate (exec (Call.stop (some A))) n (run t) = run t := by
  have hle := run_local_le_count t B
  have hfix : exec (Call.stop (some A)) (run t) = run t := by
    rw [exec]
    exact stopLoading_zero (run t) A (le_of_eq hA)
  refine ⟨?_, by rw [hfix], fun n => Function.iterate_fixed hfix n⟩
  unfold isGlobalLoading isLoading
  rw [hov]
  simp only [Option.getD_none, decide_eq_true_eq]
  omega

/-- C5 witness: after `startLoading("B")`, loading is true and three
orphan `stopLoading("A")` calls change nothing. -/
theorem c5_witness :
    isGlobalLoading (run [Call.start (some "B")]) = true ∧
    Nat.iterate (exec (Call.stop (some "A"))) 3 (run [Call.start (some "B")])
      = run [Call.start (some "B")] := by
  have h := c5_pairing_invariant [Call.start (some "B")] "A" "B"
    (by decide) (by decide) (by decide)
  exact ⟨h.1, h.2.2 3⟩

/-- C9. After any unkeyed `startLoading()` the global counter stays
positive forever: whatever calls precede or follow it, the resulting
count is `> 0`, so whenever the override is absent `isGlobalLoading()`
is true.  (Only an unkeyed start has no local counter to pair with, and
stops only decrement under the local-counter gate.) -/
theorem c9_unkeyed_start_irreversible (t1 t2 : List Call) :
    0 < (run (t1 ++ Call.start none :: t2)).loadingCount ∧
    ((run (t1 ++ Call.start none :: t2)).overrideState = none →
      isGlobalLoading (run (t1 ++ Call.start none :: t2)) = true) := by
  have hd := run_debt (t1 ++ Call.start none :: t2)
  have hs := sumL_nonneg _ (run_inv (t1 ++ Call.start none :: t2)).1
  have hf : falsyStartCount (t1 ++ Call.start none :: t2)
      = falsyStartCount t1 + (1 + falsyStartCount t2) := by
    rw [falsyStartCount_append]
    simp [falsyStartCount, falsyStart, truthy]
  have h1 := falsyStartCount_nonneg t1
  have h2 := falsyStartCount_nonneg t2
  have hpos : 0 < (run (t1 ++ Call.start none :: t2)).loadingCount := by omega
  refine ⟨hpos, fun hov => ?_⟩
  unfold isGlobalLoading isLoading
  rw [hov]
  simp only [Option.getD_none, decide_eq_true_eq]
  exact hpos

/-- C9 witness: an orphan keyed stop, then an unkeyed start, then an
unkeyed stop and another keyed stop still leave the counter positive and
loading true. -/
theorem c9_witness :
    0 < (run ([Call.stop (some "A")] ++ Call.start none
        :: [Call.stop none, Call.stop (some "A")])).loadingCount ∧
    isGlobalLoading (run ([Call.stop (some "A")] ++ Call.start none
        :: [Call.stop none, Call.stop (some "A")])) = true := by
  have h := c9_unkeyed_start_irreversible [Call.stop (some "A")]
    [Call.stop none, Call.stop (some "A")]
  exact ⟨h.1, h.2 (by decide)⟩

/-- C3. Every mutating call emits exactly one `change` event, as the last
event it emits (so any `start`/`stop` comes strictly before it, and the
payload carries the new derived boolean and whether an override is set);
a `start` event is emitted by the call iff the derived boolean goes
false to true, a `stop` event iff it goes true to false. -/
theorem c3_event_exactness (c : Call) (s : Store) :
    List.countP Ev.isChange (events c s) = 1 ∧
    (events c s).getLast? = some (Ev.change (isLoading (exec c s))
      (decide ((exec c s).overrideState ≠ none))) ∧
    (Ev.start ∈ events c s ↔
      (isLoading s = false ∧ isLoading (exec c s) = true)) ∧
    (Ev.stop ∈ events c s ↔
      (isLoading s = true ∧ isLoading (exec c s) = false)) := by
  cases c with
  | start k =>
      rw [exec]
      cases hp : isLoading s with
      | false =>
          cases hn : isLoading (startLoading k s) with
          | false => simp [events, hp, hn, Ev.isChange]
          | true => simp [events, hp, hn, Ev.isChange]
      | true =>
          have hn : isLoading (startLoading k s) = true :=
            isLoading_startLoading_true k s hp
          simp [events, hp, hn, Ev.isChange]
  | stop k =>
      rw [exec]
      cases hp : isLoading s with
      | false =>
          have hn : isLoading (stopLoading k s) = false :=
            isLoading_stopLoading_false k s hp
          simp [events, hp, hn, Ev.isChange]
      | true =>
          cases hn : isLoading (stopLoading k s) with
          | false => simp [events, hp, hn, Ev.isChange]
          | true => simp [events, hp, hn, Ev.isChange]
  | override b =>
      rw [exec]
      have hov : (overrideLoading b s).overrideState = b := rfl
      cases hp : isLoading s with
      | false =>
          cases hn : isLoading (overrideLoading b s) with
          | false => simp [events, hp, hn, Ev.isChange, hov]
          | true => simp [events, hp, hn, Ev.isChange, hov]
      | true =>
          cases hn : isLoading (overrideLoading b s) with
          | false => simp [events, hp, hn, Ev.isChange, hov]
          | true => simp [events, hp, hn, Ev.isChange, hov]

/-- C8. The async wrapper starts with the instance key, then — whether
the computation resolved (`Except.ok`) or rejected (`Except.error`) —
the `finally` block observes a positive local counter and invokes the
keyed stop, so the local counter (and the global one) return to their
pre-call values, and the original outcome is propagated unchanged. -/
theorem c8_async_balance {ε ρ : Type} (key : String) (outcome : Except ε ρ)
    (s : Store) (hkey : key ≠ "") (h0 : 0 ≤ getL s.localCounters key)
    (hc : 0 ≤ s.loadingCount) :
    (asyncUseLoading key outcome s).2 = outcome ∧
    isLocalLoading (startLoading (some key) s) key = true ∧
    getL (asyncUseLoading key outcome s).1.localCounters key
      = getL s.localCounters key ∧
    (asyncUseLoading key outcome s).1.loadingCount = s.loadingCount := by
  have hget1 : getL (startLoading (some key) s).localCounters key
      = getL s.localCounters key + 1 := by
    rw [startLoading_some s key hkey]
    exact getL_setL_self _ _ _
  have hloc : isLocalLoading (startLoading (some key) s) key = true := by
    unfold isLocalLoading
    rw [hget1]
    simp only [decide_eq_true_eq]
    omega
  have hpos : 0 < getL (startLoading (some key) s).localCounters key := by
    rw [hget1]; omega
  have hasync : asyncUseLoading key outcome s
      = (stopLoading (some key) (startLoading (some key) s), outcome) := by
    simp only [asyncUseLoading]
    rw [hloc]
    simp
  refine ⟨by rw [hasync], hloc, ?_, ?_⟩
  · rw [hasync]
    show getL (stopLoading (some key) (startLoading (some key) s)).localCounters key = _
    rw [stopLoading_pos _ key hkey hpos]
    show getL (setL (startLoading (some key) s).localCounters key
        (max 0 (getL (startLoading (some key) s).localCounters key - 1))) key = _
    rw [getL_setL_self, hget1]
    omega
  · rw [hasync]
    show (stopLoading (some key) (startLoading (some key) s)).loadingCount = _
    rw [stopLoading_pos _ key hkey hpos]
    show max 0 ((startLoading (some key) s).loadingCount - 1) = _
    rw [startLoading_loadingCount]
    omega

/-- C8 witness: a rejected computation from the initial state keeps its
error and leaves the local counter back at 0. -/
theorem c8_witness :
    (asyncUseLoading "A" (Except.error "boom" : Except String Nat) initStore).2
      = (Except.error "boom" : Except String Nat) ∧
    getL (asyncUseLoading "A" (Except.error "boom" : Except String Nat)
        initStore).1.localCounters "A"
      = getL initStore.localCounters "A" := by
  have h := c8_async_balance "A" (Except.error "boom" : Except String Nat)
    initStore (by decide) (by decide) (by decide)
  exact ⟨h.1, h.2.2.1⟩

end LoadingSpinner
